import Mathlib

/-!
# Verification of `sample_project` (`src/utils.c`, `src/main.c`)

A shallow embedding of the three C functions of the program, `add`,
`print_array` and `main`, together with theorems about them.

Modelling conventions.

* The C type `int` is a 32-bit two's-complement integer.  A value of type `int`
  is a Lean `Int` lying between `INT_MIN` and `INT_MAX`; the result of an
  arithmetic operator is brought back into that interval by `wrap32`.
* Standard output is a `String`; every `printf` call appends to it.
* The conversion `%d` of `printf` belongs to the C library, not to the program.
  It is modelled by `printf_d`: an optional minus sign followed by the decimal
  digits of the magnitude.
* A C array is a `List Int`; reading `arr[i]` is `index arr i`, which is `none`
  when `i` is outside the list (undefined behaviour in C).
* The `for` loop of `print_array` is a recursion on a step budget (`fuel`);
  every loop test costs one unit.  The theorems state how much budget suffices.
-/

namespace SampleProject

/-! ## The type `int` -/

/-- Least value of a 32-bit `int`. -/
def INT_MIN : Int := -2147483648

/-- Greatest value of a 32-bit `int`. -/
def INT_MAX : Int := 2147483647

/-- Membership of an integer in the range of `int`. -/
def isInt (v : Int) : Prop := INT_MIN ≤ v ∧ v ≤ INT_MAX

instance (v : Int) : Decidable (isInt v) := by
  unfold isInt; exact inferInstance

/-- Reduction of a mathematical integer to the 32-bit two's-complement value
that a machine `int` operation leaves in the register. -/
def wrap32 (v : Int) : Int := (v + 2147483648) % 4294967296 - 2147483648

/-! ## `utils.c` -/

/-- Embedding of `int add(int a, int b) { return a + b; }`. -/
def add (a b : Int) : Int := wrap32 (a + b)

/-- Text produced by the `%d` conversion of `printf` for the value `v`. -/
def printf_d (v : Int) : String :=
  if v < 0 then "-" ++ Nat.repr v.natAbs else Nat.repr v.natAbs

/-- Reading `arr[i]`: `none` when the index lies outside the sequence. -/
def index (arr : List Int) (i : Int) : Option Int :=
  if i < 0 then none else arr[i.toNat]?

/-- Reasons for which a run of the model stops before the function returns. -/
inductive Fault where
  /-- An element was read at the given index, outside the sequence. -/
  | outOfBounds (i : Int)
  /-- The step budget was used up. -/
  | outOfFuel
  deriving DecidableEq, Repr

/-- Observable state of a run of `print_array`. -/
structure Exec where
  /-- Text written to standard output so far. -/
  out : String
  /-- Indices at which the array was read, in order. -/
  reads : List Int
  /-- Number of times the loop body was entered. -/
  iters : Nat
  /-- Set when the run has stopped abnormally. -/
  fault : Option Fault
  deriving DecidableEq, Repr

/-- Embedding of the loop
`for (int i = 0; i < size; i++) { printf("%d", arr[i]); if (i < size - 1) printf(", "); }`
entered with loop variable `i` and state `st`. -/
def print_array_loop (arr : List Int) (size : Int) : Nat → Int → Exec → Exec
  | 0, _, st => { st with fault := some Fault.outOfFuel }
  | fuel + 1, i, st =>
    if i < size then
      match index arr i with
      | none =>
        { st with reads := st.reads ++ [i], iters := st.iters + 1,
                  fault := some (Fault.outOfBounds i) }
      | some v =>
        let st1 : Exec :=
          { st with out := st.out ++ printf_d v, reads := st.reads ++ [i],
                    iters := st.iters + 1 }
        let st2 : Exec :=
          if i < wrap32 (size - 1) then { st1 with out := st1.out ++ ", " } else st1
        print_array_loop arr size fuel (wrap32 (i + 1)) st2
    else st

/-- Embedding of `void print_array(int *arr, int size)`. -/
def print_array (fuel : Nat) (arr : List Int) (size : Int) : Exec :=
  let st0 : Exec := { out := "Array: [", reads := [], iters := 0, fault := none }
  let st := print_array_loop arr size fuel 0 st0
  match st.fault with
  | some _ => st
  | none => { st with out := st.out ++ "]\n" }

/-! ## `main.c` -/

/-- Result of a run of `main`. -/
structure MainRun where
  /-- Text written to standard output. -/
  out : String
  /-- Value returned by `main`, when it returns. -/
  exit : Option Int
  /-- Set when the run has stopped abnormally. -/
  fault : Option Fault
  deriving DecidableEq, Repr

/-- Embedding of `int main(int argc, char *argv[])`. -/
def main (fuel : Nat) (argc : Int) (argv : List String) : MainRun :=
  let _ := argv
  let out := "Test Application\n"
  let out := out ++ ("argc = " ++ printf_d argc ++ "\n")
  let result := add 10 32
  let out := out ++ ("10 + 32 = " ++ printf_d result ++ "\n")
  let arr : List Int := [1, 2, 3, 4, 5]
  let pa := print_array fuel arr 5
  let out := out ++ pa.out
  match pa.fault with
  | some f => { out := out, exit := none, fault := some f }
  | none =>
    let x : Int := 42
    let out := out ++ ("x = " ++ printf_d x ++ "\n")
    { out := out, exit := some 0, fault := none }

/-! ## Specification-side definitions -/

/-- The line described for the array printer: `Array: [`, the decimal renderings
joined by a comma and a space, `]`, newline. -/
def arrayLine (arr : List Int) : String :=
  "Array: [" ++ String.intercalate ", " (arr.map printf_d) ++ "]\n"

/-- Number of positions of `s` at which `pat` occurs. -/
def occurrences (pat : List Char) : List Char → Nat
  | [] => 0
  | c :: cs => (if pat.isPrefixOf (c :: cs) then 1 else 0) + occurrences pat cs

/-- The characters that `%d` can produce. -/
def signedDigitChars : List Char :=
  ['-', '0', '1', '2', '3', '4', '5', '6', '7', '8', '9']

/-- Value of a decimal digit character. -/
def digitValue (c : Char) : Nat := c.toNat - 48

/-- Number denoted in base 10 by a list of digit characters, most significant first. -/
def decimalNat (ds : List Char) : Nat :=
  ds.foldl (fun acc c => 10 * acc + digitValue c) 0

/-- Integer denoted in base 10 by a text made of an optional minus sign and digits. -/
def decimalValue (s : String) : Int :=
  if s.data.head? = some '-' then -(decimalNat s.data.tail : Int) else (decimalNat s.data : Int)

/-! ## Auxiliary facts on strings and lists -/

lemma intercalate_go_append (s : String) (l : List String) (acc acc' : String) :
    String.intercalate.go (acc ++ acc') s l = acc ++ String.intercalate.go acc' s l := by
  induction l generalizing acc' with
  | nil => simp [String.intercalate.go]
  | cons a as ih =>
    simp only [String.intercalate.go]
    rw [String.append_assoc, String.append_assoc, ← String.append_assoc acc' s a, ih]

lemma intercalate_nil (s : String) : String.intercalate s [] = "" := rfl

lemma intercalate_singleton (s a : String) : String.intercalate s [a] = a := rfl

lemma intercalate_cons_cons (s a b : String) (l : List String) :
    String.intercalate s (a :: b :: l) = a ++ s ++ String.intercalate s (b :: l) := by
  simp only [String.intercalate, String.intercalate.go]
  rw [intercalate_go_append]

lemma index_natCast (arr : List Int) (k : Nat) : index arr (k : Int) = arr[k]? := by
  unfold index
  have h : ¬ ((k : Int) < 0) := by omega
  simp [h]

lemma join_cons (a : String) (l : List String) :
    String.join (a :: l) = a ++ String.join l := by
  apply String.ext
  simp [String.data_join]

lemma intercalate_eq_join (s a : String) (l : List String) :
    String.intercalate s (a :: l)
      = String.join (((a :: l).dropLast).map (fun x => x ++ s))
          ++ (a :: l).getLast (List.cons_ne_nil a l) := by
  induction l generalizing a with
  | nil =>
    apply String.ext
    simp [intercalate_singleton, String.data_join]
  | cons b l ih =>
    rw [intercalate_cons_cons, ih b]
    simp only [List.dropLast_cons₂, List.map_cons, join_cons, List.getLast_cons_cons,
      String.append_assoc]

lemma digitChar_mem (d : Nat) (h : d < 10) : Nat.digitChar d ∈ signedDigitChars := by
  interval_cases d <;> decide

lemma toDigitsCore_mem (fuel n : Nat) (ds : List Char)
    (hds : ∀ c ∈ ds, c ∈ signedDigitChars) :
    ∀ c ∈ Nat.toDigitsCore 10 fuel n ds, c ∈ signedDigitChars := by
  induction fuel generalizing n ds with
  | zero => simpa [Nat.toDigitsCore] using hds
  | succ fuel ih =>
    have hd : Nat.digitChar (n % 10) ∈ signedDigitChars :=
      digitChar_mem _ (Nat.mod_lt _ (by decide))
    have hds' : ∀ c ∈ Nat.digitChar (n % 10) :: ds, c ∈ signedDigitChars := by
      intro c hc
      rcases List.mem_cons.mp hc with rfl | hc
      · exact hd
      · exact hds c hc
    by_cases h0 : n / 10 = 0
    · simpa [Nat.toDigitsCore, h0] using hds'
    · simpa [Nat.toDigitsCore, h0] using ih _ _ hds'

lemma repr_mem (n : Nat) : ∀ c ∈ (Nat.repr n).data, c ∈ signedDigitChars := by
  unfold Nat.repr Nat.toDigits
  exact toDigitsCore_mem _ _ [] (by simp)

/-- Every character written by `%d` is a minus sign or a decimal digit. -/
lemma printf_d_mem (v : Int) : ∀ c ∈ (printf_d v).data, c ∈ signedDigitChars := by
  unfold printf_d
  split
  · intro c hc
    rw [String.data_append] at hc
    rcases List.mem_append.mp hc with h | h
    · have : c = '-' := by simpa using h
      subst this
      decide
    · exact repr_mem _ c h
  · exact repr_mem _

lemma digitValue_digitChar (d : Nat) (h : d < 10) : digitValue (Nat.digitChar d) = d := by
  interval_cases d <;> rfl

lemma digitChar_ne_minus (d : Nat) (h : d < 10) : Nat.digitChar d ≠ '-' := by
  interval_cases d <;> decide

lemma decimalNat_append_singleton (pre : List Char) (c : Char) :
    decimalNat (pre ++ [c]) = 10 * decimalNat pre + digitValue c := by
  simp [decimalNat, List.foldl_append]

/-- The digits produced by `Nat.toDigitsCore` in front of the accumulator denote
the number converted, and the first of them is not a minus sign. -/
lemma toDigitsCore_value (fuel n : Nat) (ds : List Char) (h : n < fuel) :
    ∃ pre, Nat.toDigitsCore 10 fuel n ds = pre ++ ds ∧ decimalNat pre = n ∧
      pre.head? ≠ some '-' := by
  induction fuel generalizing n ds with
  | zero => omega
  | succ fuel ih =>
    by_cases h0 : n / 10 = 0
    · refine ⟨[Nat.digitChar (n % 10)], by simp [Nat.toDigitsCore, h0], ?_, ?_⟩
      · have hn : n % 10 = n := by omega
        have hd := digitValue_digitChar _ (Nat.mod_lt n (by decide : 0 < 10))
        simp only [decimalNat, List.foldl_cons, List.foldl_nil, hd]
        omega
      · simpa using digitChar_ne_minus _ (Nat.mod_lt n (by decide))
    · obtain ⟨pre, hpre, hval, hhead⟩ :=
        ih (n / 10) (Nat.digitChar (n % 10) :: ds) (by omega)
      refine ⟨pre ++ [Nat.digitChar (n % 10)], ?_, ?_, ?_⟩
      · simp [Nat.toDigitsCore, h0, hpre]
      · rw [decimalNat_append_singleton, hval,
          digitValue_digitChar _ (Nat.mod_lt n (by decide))]
        omega
      · cases pre with
        | nil => simp [decimalNat] at hval; omega
        | cons c cs => simpa using hhead

lemma repr_value (n : Nat) :
    decimalNat (Nat.repr n).data = n ∧ (Nat.repr n).data.head? ≠ some '-' := by
  obtain ⟨pre, hpre, hval, hhead⟩ := toDigitsCore_value (n + 1) n [] (by omega)
  have hdata : (Nat.repr n).data = pre := by
    simpa [Nat.repr, Nat.toDigits] using hpre
  rw [hdata]
  exact ⟨hval, hhead⟩

/-- The text written by `%d` denotes, in base 10, the value converted. -/
lemma decimalValue_printf_d (v : Int) : decimalValue (printf_d v) = v := by
  obtain ⟨hval, hhead⟩ := repr_value v.natAbs
  by_cases hv : v < 0
  · have hd : ("-" ++ Nat.repr v.natAbs).data = '-' :: (Nat.repr v.natAbs).data := by
      rw [String.data_append]; rfl
    have hp : printf_d v = "-" ++ Nat.repr v.natAbs := by simp [printf_d, hv]
    unfold decimalValue
    rw [hp, hd]
    simp only [List.head?_cons, if_true, List.tail_cons, hval]
    omega
  · have hp : printf_d v = Nat.repr v.natAbs := by simp [printf_d, hv]
    unfold decimalValue
    rw [hp, if_neg hhead, hval]
    omega

lemma printf_d_count (v : Int) (x : Char) (hx : x ∉ signedDigitChars) :
    (printf_d v).data.count x = 0 := by
  rw [List.count_eq_zero]
  intro h
  exact hx (printf_d_mem v x h)

lemma occurrences_skip (l r : List Char) (h : ∀ c ∈ l, c ≠ ',') :
    occurrences [',', ' '] (l ++ r) = occurrences [',', ' '] r := by
  induction l with
  | nil => rfl
  | cons c l ih =>
    have hc : (',' == c) = false := by
      rw [beq_eq_false_iff_ne]
      exact fun e => h c (List.mem_cons_self _ _) e.symm
    have ih' := ih (fun c hc => h c (List.mem_cons_of_mem _ hc))
    simp [occurrences, List.isPrefixOf, hc, ih']

lemma occurrences_sep (r : List Char) :
    occurrences [',', ' '] (',' :: ' ' :: r) = occurrences [',', ' '] r + 1 := by
  simp [occurrences, List.isPrefixOf, Nat.add_comm]

lemma printf_d_no_comma (v : Int) : ∀ c ∈ (printf_d v).data, c ≠ ',' := by
  intro c hc hcomma
  have := printf_d_mem v c hc
  subst hcomma
  revert this
  decide

lemma occurrences_intercalate (a : Int) (l : List Int) (t : List Char)
    (ht : ∀ c ∈ t, c ≠ ',') :
    occurrences [',', ' ']
      ((String.intercalate ", " ((a :: l).map printf_d)).data ++ t) = l.length := by
  induction l generalizing a with
  | nil =>
    simp only [List.map_cons, List.map_nil, intercalate_singleton, List.length_nil]
    rw [occurrences_skip _ _ (printf_d_no_comma a)]
    have := occurrences_skip t [] ht
    simpa [occurrences] using this
  | cons b l ih =>
    simp only [List.map_cons, intercalate_cons_cons, String.data_append, List.append_assoc,
      List.length_cons]
    rw [occurrences_skip _ _ (printf_d_no_comma a)]
    simp only [List.cons_append, List.nil_append]
    rw [occurrences_sep]
    have := ih b
    simp only [List.map_cons] at this
    rw [this]

/-! ## Arithmetic -/

lemma wrap32_of_isInt {v : Int} (h : isInt v) : wrap32 v = v := by
  unfold isInt INT_MIN INT_MAX at h
  unfold wrap32
  omega

lemma isInt_wrap32 (v : Int) : isInt (wrap32 v) := by
  unfold isInt INT_MIN INT_MAX wrap32
  omega

/-- C1 (as amended): for all `int` values `a` and `b` whose mathematical sum is
again in the range of `int`, `add a b` is exactly `a + b`. -/
theorem add_exact (a b : Int) (_ha : isInt a) (_hb : isInt b) (hs : isInt (a + b)) :
    add a b = a + b := by
  unfold add
  exact wrap32_of_isInt hs

theorem add_exact_witness :
    isInt 10 ∧ isInt 32 ∧ isInt (10 + 32) ∧ add 10 32 = 10 + 32 :=
  ⟨by decide, by decide, by decide, add_exact 10 32 (by decide) (by decide) (by decide)⟩

/-- C1 (counterexample): `2147483647` and `1` are both `int` values, yet
`add 2147483647 1` is `-2147483648`, not the mathematical sum `2147483648`. -/
theorem add_not_exact_at_int_max :
    isInt 2147483647 ∧ isInt 1 ∧ add 2147483647 1 = -2147483648 ∧
      add 2147483647 1 ≠ 2147483647 + 1 := by
  decide

/-- C8: for all `a` and `b`, whether or not `a + b` leaves the range of `int`,
`add a b` is a value (the function has no failure outcome), it lies in
`[-2^31, 2^31 - 1]`, it is congruent to `a + b` modulo `2^32`, and it is the only
such value; in particular `add 2147483647 1 = -2147483648`. -/
theorem add_wraparound (a b : Int) :
    (INT_MIN = -2 ^ 31 ∧ INT_MAX = 2 ^ 31 - 1) ∧
    isInt (add a b) ∧
    add a b % 2 ^ 32 = (a + b) % 2 ^ 32 ∧
    (∀ r : Int, isInt r → r % 2 ^ 32 = (a + b) % 2 ^ 32 → r = add a b) ∧
    add 2147483647 1 = -2147483648 := by
  refine ⟨by decide, isInt_wrap32 _, ?_, ?_, by decide⟩
  · unfold add wrap32
    norm_num
    omega
  · intro r hr hmod
    unfold isInt INT_MIN INT_MAX at hr
    unfold add wrap32
    norm_num at hmod ⊢
    omega

/-! ## The loop of `print_array` -/

/-- Loop invariant, normal termination: entered at index `k ≤ n` with a count `n`
that does not exceed the length of the sequence, and with a budget above `n - k`,
the loop leaves the state described here. -/
lemma print_array_loop_ok (arr : List Int) (n : Nat) (hn : n ≤ arr.length)
    (hmax : (n : Int) ≤ INT_MAX) (fuel k : Nat) (hk : k ≤ n) (hfuel : n - k < fuel)
    (st : Exec) :
    print_array_loop arr n fuel k st =
      { out := st.out ++ String.intercalate ", " (((arr.take n).drop k).map printf_d),
        reads := st.reads ++ (List.range' k (n - k)).map Int.ofNat,
        iters := st.iters + (n - k),
        fault := st.fault } := by
  replace hmax : (n : Int) ≤ 2147483647 := hmax
  induction fuel generalizing k st with
  | zero => omega
  | succ fuel ih =>
    unfold print_array_loop
    by_cases hlt : k < n
    · have hlt' : (k : Int) < (n : Int) := by exact_mod_cast hlt
      have hidx : index arr (k : Int) = some arr[k] := by
        rw [index_natCast, List.getElem?_eq_getElem]
      have hlen : (arr.take n).length = n := by
        rw [List.length_take]; omega
      have hdrop : (arr.take n).drop k = arr[k] :: (arr.take n).drop (k + 1) := by
        rw [List.drop_eq_getElem_cons (by rw [hlen]; exact hlt)]
        simp
      have hdrop2 : ∀ _h : k + 1 < n, (arr.take n).drop (k + 1)
          = arr[k + 1] :: (arr.take n).drop (k + 1 + 1) := by
        intro h
        rw [List.drop_eq_getElem_cons (by rw [hlen]; exact h)]
        simp
      have hw1 : wrap32 ((k : Int) + 1) = ((k + 1 : Nat) : Int) := by
        rw [wrap32_of_isInt]
        · push_cast; rfl
        · unfold isInt INT_MIN INT_MAX; omega
      have hw2 : wrap32 ((n : Int) - 1) = (n : Int) - 1 := by
        rw [wrap32_of_isInt]
        unfold isInt INT_MIN INT_MAX; omega
      simp only [hlt', if_true, hidx, hw1, hw2]
      rw [ih (k + 1) (by omega) (by omega)]
      have hr : n - k = (n - (k + 1)) + 1 := by omega
      rw [hdrop, hr, List.range'_succ]
      by_cases hlast : k + 1 < n
      · have hlast' : (k : Int) < (n : Int) - 1 := by omega
        simp only [hlast', if_true, hdrop2 hlast, List.map_cons, intercalate_cons_cons]
        simp [String.append_assoc, Nat.add_assoc, Nat.add_comm 1]
      · have hlast' : ¬ ((k : Int) < (n : Int) - 1) := by omega
        have hnil : (arr.take n).drop (k + 1) = [] := by
          apply List.drop_eq_nil_of_le
          rw [hlen]; omega
        simp only [hlast', if_false, hnil, List.map_cons, List.map_nil,
          intercalate_singleton, intercalate_nil]
        simp [String.append_assoc, Nat.add_assoc, Nat.add_comm 1]
    · have hkn : k = n := by omega
      subst hkn
      have hlt' : ¬ ((k : Int) < (k : Int)) := by omega
      have hnil : (arr.take k).drop k = [] := by
        apply List.drop_eq_nil_of_le
        rw [List.length_take]; omega
      cases st
      simp only [hlt', if_false, hnil, List.map_nil, intercalate_nil, Nat.sub_self,
        List.range'_zero, List.append_nil, Nat.add_zero, String.append_empty]

/-- Loop invariant, count beyond the sequence: entered at index `k` inside the
sequence with a count `size` greater than the length, the loop reads every index
from `k` up to the length itself and stops there with an out-of-bounds read. -/
lemma print_array_loop_oob (arr : List Int) (size : Int) (hlen : (arr.length : Int) < size)
    (hmax : size ≤ INT_MAX) (fuel k : Nat) (hk : k ≤ arr.length)
    (hfuel : arr.length - k < fuel) (st : Exec) :
    (print_array_loop arr size fuel k st).reads
        = st.reads ++ (List.range' k (arr.length - k + 1)).map Int.ofNat ∧
      (print_array_loop arr size fuel k st).iters = st.iters + (arr.length - k + 1) ∧
      (print_array_loop arr size fuel k st).fault
        = some (Fault.outOfBounds (arr.length : Int)) := by
  replace hmax : size ≤ 2147483647 := hmax
  induction fuel generalizing k st with
  | zero => omega
  | succ fuel ih =>
    unfold print_array_loop
    have hlt : (k : Int) < size := by omega
    by_cases hin : k < arr.length
    · have hidx : index arr (k : Int) = some arr[k] := by
        rw [index_natCast, List.getElem?_eq_getElem]
      have hr : arr.length - k + 1 = (arr.length - (k + 1) + 1) + 1 := by omega
      have hw1 : wrap32 ((k : Int) + 1) = ((k + 1 : Nat) : Int) := by
        rw [wrap32_of_isInt]
        · push_cast; rfl
        · unfold isInt INT_MIN INT_MAX; omega
      simp only [hlt, if_true, hidx, hw1]
      obtain ⟨h1, h2, h3⟩ := ih (k + 1) (by omega) (by omega)
        (if (k : Int) < wrap32 (size - 1) then
          { out := st.out ++ printf_d arr[k] ++ ", ", reads := st.reads ++ [(k : Int)],
            iters := st.iters + 1, fault := st.fault }
         else
          { out := st.out ++ printf_d arr[k], reads := st.reads ++ [(k : Int)],
            iters := st.iters + 1, fault := st.fault })
      refine ⟨?_, ?_, h3⟩
      · rw [h1, hr, List.range'_succ k]
        split <;> simp
      · rw [h2]
        split <;> simp <;> omega
    · have hkl : k = arr.length := by omega
      have hidx : index arr (k : Int) = none := by
        rw [index_natCast]
        simp [hkl]
      simp only [hlt, if_true, hidx]
      subst hkl
      simp

/-- Run of `print_array` with a count within the sequence. -/
lemma print_array_ok (arr : List Int) (n : Nat) (hn : n ≤ arr.length)
    (hmax : (n : Int) ≤ INT_MAX) (fuel : Nat) (hfuel : n < fuel) :
    print_array fuel arr n =
      { out := "Array: [" ++ String.intercalate ", " ((arr.take n).map printf_d) ++ "]\n",
        reads := (List.range n).map Int.ofNat,
        iters := n,
        fault := none } := by
  unfold print_array
  have h := print_array_loop_ok arr n hn hmax fuel 0 (Nat.zero_le n) (by omega)
    { out := "Array: [", reads := [], iters := 0, fault := none }
  simp only [Nat.cast_zero] at h
  simp only [h, List.drop_zero, Nat.sub_zero, List.nil_append, Nat.zero_add,
    List.range_eq_range']

/-! ## `print_array` -/

/-- C2: for every sequence `arr` and count `n` equal to its length, a run of
`print_array arr n` with a budget above `n` returns normally and has written
exactly `Array: [`, the `%d` renderings of the elements joined by `", "`, then `]`
and a newline (the line `arrayLine arr`); each rendering denotes its element in
base 10, and that of a negative element is a minus sign followed by the rendering
of its magnitude; for `[1, 2, 3, 4, 5]` the text is `"Array: [1, 2, 3, 4, 5]\n"`. -/
theorem print_array_writes_arrayLine (arr : List Int) (n : Int) (fuel : Nat)
    (hn : n = arr.length) (hint : isInt n) (hfuel : arr.length < fuel) :
    (print_array fuel arr n).fault = none ∧
    (print_array fuel arr n).out
      = "Array: [" ++ String.intercalate ", " (arr.map printf_d) ++ "]\n" ∧
    (print_array fuel arr n).out = arrayLine arr ∧
    (∀ v ∈ arr, decimalValue (printf_d v) = v ∧
      (v < 0 → printf_d v = "-" ++ printf_d (-v))) ∧
    (arr = [1, 2, 3, 4, 5] → (print_array fuel arr n).out = "Array: [1, 2, 3, 4, 5]\n") := by
  subst hn
  have h := print_array_ok arr arr.length (Nat.le_refl _) hint.2 fuel hfuel
  rw [List.take_length] at h
  refine ⟨by rw [h], by rw [h], by rw [h]; rfl, ?_, ?_⟩
  · intro v _ 
    refine ⟨decimalValue_printf_d v, ?_⟩
    intro hv
    have hv' : ¬ (-v < 0) := by omega
    simp [printf_d, hv, hv']
  · intro harr
    subst harr
    rw [h]
    decide

theorem print_array_writes_arrayLine_witness :
    (print_array 4 [3, -14, 0] 3).fault = none ∧
    (print_array 4 [3, -14, 0] 3).out = "Array: [3, -14, 0]\n" :=
  have h := print_array_writes_arrayLine [3, -14, 0] 3 4 (by decide) (by decide) (by decide)
  ⟨h.1, h.2.1.trans (by decide)⟩

/-- C4: with the empty sequence and count `0`, `print_array` (any positive budget)
returns normally, reads nothing, never enters the loop body and writes exactly
`"Array: []\n"`. -/
theorem print_array_empty (fuel : Nat) (hfuel : 0 < fuel) :
    print_array fuel [] 0 =
      { out := "Array: []\n", reads := [], iters := 0, fault := none } := by
  obtain ⟨f, rfl⟩ : ∃ f, fuel = f + 1 := ⟨fuel - 1, by omega⟩
  rfl

theorem print_array_empty_witness :
    print_array 1 [] 0 = { out := "Array: []\n", reads := [], iters := 0, fault := none } :=
  print_array_empty 1 (by decide)

/-- C9: let `n` be an `int` and the budget exceed `n`.  If `0 ≤ n ≤ length arr`,
the run of `print_array arr n` returns normally after exactly `n` entries of the
loop body, it reads the indices `0, 1, ..., n - 1` in this order, and every index
read is at least `0`, below `n`, and inside the sequence.  If `n > length arr`,
the run reads index `length arr`, which is outside the sequence, and stops there
with an out-of-bounds fault. -/
theorem print_array_accesses (arr : List Int) (n : Int) (fuel : Nat)
    (hint : isInt n) (hfuel : n.toNat < fuel) :
    (0 ≤ n → n ≤ arr.length →
      (print_array fuel arr n).fault = none ∧
      (print_array fuel arr n).iters = n.toNat ∧
      (print_array fuel arr n).reads = (List.range n.toNat).map Int.ofNat ∧
      ∀ i ∈ (print_array fuel arr n).reads, 0 ≤ i ∧ i < n ∧ (index arr i).isSome = true) ∧
    ((arr.length : Int) < n →
      (arr.length : Int) ∈ (print_array fuel arr n).reads ∧
      index arr (arr.length : Int) = none ∧
      (print_array fuel arr n).iters = arr.length + 1 ∧
      (print_array fuel arr n).fault = some (Fault.outOfBounds (arr.length : Int))) := by
  constructor
  · intro h0 hle
    obtain ⟨m, rfl⟩ : ∃ m : Nat, n = m := ⟨n.toNat, (Int.toNat_of_nonneg h0).symm⟩
    have hm : m ≤ arr.length := by exact_mod_cast hle
    rw [print_array_ok arr m hm hint.2 fuel (by simpa using hfuel)]
    refine ⟨rfl, by simp, by simp, ?_⟩
    intro i hi
    simp only [List.mem_map, List.mem_range] at hi
    obtain ⟨j, hj, rfl⟩ := hi
    have hjl : j < arr.length := by omega
    refine ⟨by simp, by simpa using hj, ?_⟩
    show (index arr (j : Int)).isSome = true
    rw [index_natCast, List.getElem?_eq_getElem hjl]
    rfl
  · intro hgt
    have hf : arr.length - 0 < fuel := by omega
    obtain ⟨h1, h2, h3⟩ := print_array_loop_oob arr n hgt hint.2 fuel 0 (Nat.zero_le _) hf
      { out := "Array: [", reads := [], iters := 0, fault := none }
    simp only [Nat.cast_zero] at h1 h2 h3
    have hpa : print_array fuel arr n = print_array_loop arr n fuel 0
        { out := "Array: [", reads := [], iters := 0, fault := none } := by
      unfold print_array
      simp only [h3]
    rw [hpa, h1, h2, h3]
    refine ⟨?_, ?_, by simp, rfl⟩
    · simp only [List.nil_append, List.mem_map, List.mem_range'_1]
      exact ⟨arr.length, by omega, rfl⟩
    · rw [index_natCast]
      simp

theorem print_array_accesses_witness :
    ((print_array 4 [7, 8, 9] 3).fault = none ∧
      (print_array 4 [7, 8, 9] 3).iters = 3 ∧
      (print_array 4 [7, 8, 9] 3).reads = [0, 1, 2]) ∧
    ((3 : Int) ∈ (print_array 6 [7, 8, 9] 5).reads ∧
      index [7, 8, 9] 3 = none ∧
      (print_array 6 [7, 8, 9] 5).fault = some (Fault.outOfBounds 3)) :=
  have h1 := (print_array_accesses [7, 8, 9] 3 4 (by decide) (by decide)).1
    (by decide) (by decide)
  have h2 := (print_array_accesses [7, 8, 9] 5 6 (by decide) (by decide)).2 (by decide)
  ⟨⟨h1.1, h1.2.1, h1.2.2.1⟩, ⟨h2.1, h2.2.1, h2.2.2.2⟩⟩

/-- C10: for every sequence and every count `n ≤ 0`, negative counts included,
`print_array` (any positive budget) reads no element, never enters the loop body,
returns normally and writes exactly `"Array: []\n"`; and for an `int` count `n`
with `0 ≤ n` not exceeding the lengths of two sequences that agree on their first
`n` elements, the two runs (budget above `n`) return normally with the same
output, which is the line of those first `n` elements. -/
theorem print_array_prefix_only (n : Int) (fuel : Nat) (hfuel : n.toNat < fuel) :
    (n ≤ 0 → ∀ arr : List Int,
      print_array fuel arr n =
        { out := "Array: []\n", reads := [], iters := 0, fault := none }) ∧
    (0 ≤ n → isInt n → ∀ arr₁ arr₂ : List Int,
      n ≤ arr₁.length → n ≤ arr₂.length → arr₁.take n.toNat = arr₂.take n.toNat →
        (print_array fuel arr₁ n).fault = none ∧
        (print_array fuel arr₂ n).fault = none ∧
        (print_array fuel arr₁ n).out = (print_array fuel arr₂ n).out ∧
        (print_array fuel arr₁ n).out = arrayLine (arr₁.take n.toNat)) := by
  constructor
  · intro hn arr
    obtain ⟨f, rfl⟩ : ∃ f, fuel = f + 1 := ⟨fuel - 1, by omega⟩
    have hlt : ¬ ((0 : Int) < n) := by omega
    simp only [print_array, print_array_loop, hlt, if_false]
    rfl
  · intro h0 hint arr₁ arr₂ h₁ h₂ htake
    obtain ⟨m, rfl⟩ : ∃ m : Nat, n = m := ⟨n.toNat, (Int.toNat_of_nonneg h0).symm⟩
    have hm₁ : m ≤ arr₁.length := by exact_mod_cast h₁
    have hm₂ : m ≤ arr₂.length := by exact_mod_cast h₂
    have hf : m < fuel := by simpa using hfuel
    simp only [Int.toNat_ofNat] at htake
    rw [print_array_ok arr₁ m hm₁ hint.2 fuel hf, print_array_ok arr₂ m hm₂ hint.2 fuel hf]
    simp only [Int.toNat_ofNat, htake, arrayLine, and_self]

theorem print_array_prefix_only_witness :
    print_array 1 [4, 5] (-3) =
      { out := "Array: []\n", reads := [], iters := 0, fault := none } ∧
    (print_array 3 [1, 2, 3] 2).out = (print_array 3 [1, 2, 9, 9] 2).out :=
  ⟨(print_array_prefix_only (-3) 1 (by decide)).1 (by decide) [4, 5],
   ((print_array_prefix_only 2 3 (by decide)).2 (by decide) (by decide)
      [1, 2, 3] [1, 2, 9, 9] (by decide) (by decide) (by decide)).2.2.1⟩

/-- C5: for every non-empty sequence `arr` and count `n` equal to its length, the
text written by `print_array arr n` (budget above `n`) contains exactly `n - 1`
occurrences of the separator `", "`, and it consists of `Array: [`, every element
but the last followed by `", "`, then the last element followed at once by `]` and
the newline; for `[7]` the text is `"Array: [7]\n"`. -/
theorem print_array_separators (arr : List Int) (n : Int) (fuel : Nat) (hne : arr ≠ [])
    (hn : n = arr.length) (hint : isInt n) (hfuel : arr.length < fuel) :
    (print_array fuel arr n).fault = none ∧
    occurrences ", ".data (print_array fuel arr n).out.data = arr.length - 1 ∧
    (print_array fuel arr n).out
      = "Array: [" ++ String.join (arr.dropLast.map (fun v => printf_d v ++ ", "))
          ++ printf_d (arr.getLast hne) ++ "]\n" ∧
    (arr = [7] → (print_array fuel arr n).out = "Array: [7]\n") := by
  subst hn
  have h := print_array_ok arr arr.length (Nat.le_refl _) hint.2 fuel hfuel
  rw [List.take_length] at h
  rw [h]
  refine ⟨rfl, ?_, ?_, ?_⟩
  · obtain ⟨a, l, rfl⟩ : ∃ a l, arr = a :: l := by
      cases arr with
      | nil => exact absurd rfl hne
      | cons a l => exact ⟨a, l, rfl⟩
    show occurrences [',', ' '] _ = _
    simp only [String.data_append, List.append_assoc]
    rw [occurrences_skip _ _ (by decide), occurrences_intercalate a l _ (by decide)]
    simp
  · obtain ⟨a, l, rfl⟩ : ∃ a l, arr = a :: l := by
      cases arr with
      | nil => exact absurd rfl hne
      | cons a l => exact ⟨a, l, rfl⟩
    show "Array: [" ++ String.intercalate ", " ((a :: l).map printf_d) ++ "]\n" = _
    rw [List.map_cons, intercalate_eq_join]
    have hlast : (printf_d a :: l.map printf_d).getLast (List.cons_ne_nil _ _)
        = printf_d ((a :: l).getLast hne) := by
      exact List.getLast_map printf_d (a :: l) (List.cons_ne_nil _ _)
    have hdl : ((printf_d a :: l.map printf_d).dropLast).map (fun x => x ++ ", ")
        = ((a :: l).dropLast).map (fun v => printf_d v ++ ", ") := by
      rw [← List.map_cons, ← List.map_dropLast, List.map_map]
      rfl
    rw [hlast, hdl]
    simp only [String.append_assoc]
  · intro harr
    subst harr
    decide

theorem print_array_separators_witness :
    occurrences ", ".data (print_array 4 [7, -8, 9] 3).out.data = 2 ∧
    (print_array 4 [7, -8, 9] 3).out = "Array: [7, -8, 9]\n" :=
  have h := print_array_separators [7, -8, 9] 3 4 (by decide) (by decide) (by decide)
    (by decide)
  ⟨h.2.1, h.2.2.1.trans (by decide)⟩

/-! ## `main` -/

/-- Run of `print_array` on the array of `main`. -/
lemma print_array_main (fuel : Nat) (hfuel : 5 < fuel) :
    print_array fuel [1, 2, 3, 4, 5] 5 =
      { out := "Array: [1, 2, 3, 4, 5]\n", reads := [0, 1, 2, 3, 4], iters := 5,
        fault := none } := by
  have h := print_array_ok [1, 2, 3, 4, 5] 5 (by decide) (by decide) fuel hfuel
  rw [show ((5 : Nat) : Int) = 5 from rfl] at h
  rw [h]
  decide

/-- Run of `main` with a sufficient budget. -/
lemma main_ok (fuel : Nat) (hfuel : 5 < fuel) (argc : Int) (argv : List String) :
    main fuel argc argv =
      { out := "Test Application\n" ++ ("argc = " ++ printf_d argc ++ "\n") ++ "10 + 32 = 42\n"
          ++ "Array: [1, 2, 3, 4, 5]\n" ++ "x = 42\n",
        exit := some 0,
        fault := none } := by
  unfold main
  simp only [print_array_main fuel hfuel]
  have h1 : "10 + 32 = " ++ printf_d (add 10 32) ++ "\n" = "10 + 32 = 42\n" := by decide
  have h2 : "x = " ++ printf_d 42 ++ "\n" = "x = 42\n" := by decide
  rw [h1, h2]

/-- C3: for every argument count `argc` (and every argument vector), a run of `main`
with a budget above `5` returns normally and its output is exactly the five lines
`Test Application`, `argc = ` followed by the `%d` rendering of `argc`,
`10 + 32 = 42`, `Array: [1, 2, 3, 4, 5]` and `x = 42`, in this order, each ended by
a newline; the fourth line is the text written by `print_array`; the output holds
exactly five newline characters; with `argc = 1` the second line is `argc = 1`. -/
theorem main_output (fuel : Nat) (argc : Int) (argv : List String) (hfuel : 5 < fuel) :
    (main fuel argc argv).fault = none ∧
    (main fuel argc argv).out
      = "Test Application\n" ++ ("argc = " ++ printf_d argc ++ "\n") ++ "10 + 32 = 42\n"
          ++ "Array: [1, 2, 3, 4, 5]\n" ++ "x = 42\n" ∧
    (print_array fuel [1, 2, 3, 4, 5] 5).out = "Array: [1, 2, 3, 4, 5]\n" ∧
    (main fuel argc argv).out.data.count '\n' = 5 ∧
    (argc = 1 → (main fuel argc argv).out
      = "Test Application\nargc = 1\n10 + 32 = 42\nArray: [1, 2, 3, 4, 5]\nx = 42\n") := by
  rw [main_ok fuel hfuel, print_array_main fuel hfuel]
  refine ⟨rfl, rfl, rfl, ?_, ?_⟩
  · simp only [String.data_append, List.count_append,
      printf_d_count argc '\n' (by decide)]
    decide
  · intro h1
    subst h1
    decide

theorem main_output_witness :
    (main 6 1 ["./app"]).fault = none ∧
    (main 6 1 ["./app"]).out
      = "Test Application\nargc = 1\n10 + 32 = 42\nArray: [1, 2, 3, 4, 5]\nx = 42\n" :=
  have h := main_output 6 1 ["./app"] (by decide)
  ⟨h.1, h.2.2.2.2 rfl⟩

/-- C6: for every argument count and every argument vector, a run of `main` with a
budget above `5` returns, and the value returned is `0`; moreover no run of `main`,
whatever the budget, returns a value other than `0`. -/
theorem main_returns_zero (fuel : Nat) (argc : Int) (argv : List String)
    (hfuel : 5 < fuel) :
    (main fuel argc argv).fault = none ∧
    (main fuel argc argv).exit = some 0 ∧
    (∀ (fuel' : Nat) (e : Int), (main fuel' argc argv).exit = some e → e = 0) := by
  rw [main_ok fuel hfuel]
  refine ⟨rfl, rfl, ?_⟩
  intro fuel' e he
  cases hpa : (print_array fuel' [1, 2, 3, 4, 5] 5).fault with
  | some f => simp [main, hpa] at he
  | none =>
    simp only [main, hpa, Option.some.injEq] at he
    exact he.symm

theorem main_returns_zero_witness :
    (main 6 3 ["./app", "-v", "file"]).fault = none ∧
    (main 6 3 ["./app", "-v", "file"]).exit = some 0 :=
  have h := main_returns_zero 6 3 ["./app", "-v", "file"] (by decide)
  ⟨h.1, h.2.1⟩

/-- C7: two runs of `main` with the same argument count (budgets above `5`) return
normally with the same output and the same exit status, whatever the two argument
vectors contain; hence output and status are a function of the argument count
alone, and runs with identical launch arguments give identical results. -/
theorem main_depends_on_argc_only (fuel₁ fuel₂ : Nat) (argc : Int)
    (argv₁ argv₂ : List String) (h₁ : 5 < fuel₁) (h₂ : 5 < fuel₂) :
    (main fuel₁ argc argv₁).fault = none ∧
    (main fuel₂ argc argv₂).fault = none ∧
    (main fuel₁ argc argv₁).out = (main fuel₂ argc argv₂).out ∧
    (main fuel₁ argc argv₁).exit = (main fuel₂ argc argv₂).exit ∧
    (main fuel₁ argc argv₁).out.toUTF8 = (main fuel₂ argc argv₂).out.toUTF8 := by
  rw [main_ok fuel₁ h₁, main_ok fuel₂ h₂]
  exact ⟨rfl, rfl, rfl, rfl, rfl⟩

theorem main_depends_on_argc_only_witness :
    (main 6 2 ["./app", "alpha"]).out = (main 9 2 ["other", "beta"]).out ∧
    (main 6 2 ["./app", "alpha"]).exit = (main 9 2 ["other", "beta"]).exit :=
  have h := main_depends_on_argc_only 6 9 2 ["./app", "alpha"] ["other", "beta"]
    (by decide) (by decide)
  ⟨h.2.2.1, h.2.2.2.1⟩

end SampleProject
